import Mathlib

/-!
Verification development for the dubbo-python3 client library.

The definitions below are a shallow embedding of the repository's source:
* `src/dubbo/codec/encoder.py` — the Hessian2-style request encoder
  (`Object`, `Request._get_parameter_types`, `Request._encode_single_value`,
  `Request._encode_request_body`, `Request.encode`, `get_request_body_length`);
* `src/dubbo/client.py` — the client facade (`DubboClient.call`) and the
  registry's filtering and routing (`ZkRegister._filter_with_group_version`,
  `ZkRegister.is_contain`, `ZkRegister._routing_with_wight`).

Modelling conventions:
* Python integers are `Int`; byte emission is `List Int` before the final
  `& 0xff` masking pass that `_encode_request_body` performs, and `List Nat`
  (values in `[0, 256)`) after it.
* Python `>>` on ints is floor division by a power of two (`Int.fdiv`);
  Python `& 0xff` on ints is `Int.emod · 256`.
* Python strings are modelled by their sequence of Unicode code points
  (`List Nat`); the encoder file is Python-2 era code (`value.decode('utf-8')`
  computes the code-point count, `bytearray(value)` yields the UTF-8 bytes),
  so a string value encodes as a code-point-counting length prefix followed
  by the UTF-8 bytes of the code points.
* Randomness in the router (`random.choice`, `random.randint`) is
  externalized: the drawn values are explicit parameters.
-/

namespace Dubbo

/-- Modelled from the spec: the per-value encoding constants of
`dubbo/common/constants.py`, which is not part of the provided sources.
The spec gives `BC_INT_ZERO = 0x90`, `BC_INT_BYTE_ZERO = 0xc8`,
`BC_INT_SHORT_ZERO = 0xd4` and the direct/byte/short integer ranges
explicitly; the remaining values are the standard Hessian2 tag bytes the
spec names symbolically. -/
def INT_DIRECT_MIN : Int := -16

def INT_DIRECT_MAX : Int := 47

def BC_INT_ZERO : Int := 0x90

def INT_BYTE_MIN : Int := -2048

def INT_BYTE_MAX : Int := 2047

def BC_INT_BYTE_ZERO : Int := 0xc8

def INT_SHORT_MIN : Int := -262144

def INT_SHORT_MAX : Int := 262143

def BC_INT_SHORT_ZERO : Int := 0xd4

def MIN_INT_32 : Int := -0x80000000

def MAX_INT_32 : Int := 0x7fffffff

/-- Lower bound of `struct.pack('>q', ·)` (signed 64-bit). -/
def MIN_INT_64 : Int := -0x8000000000000000

/-- Upper bound of `struct.pack('>q', ·)` (signed 64-bit). -/
def MAX_INT_64 : Int := 0x7fffffffffffffff

def BC_DOUBLE_ZERO : Int := 0x5b

def BC_DOUBLE_ONE : Int := 0x5c

def BC_DOUBLE_BYTE : Int := 0x5d

def BC_DOUBLE_SHORT : Int := 0x5e

def BC_DOUBLE_MILL : Int := 0x5f

def STRING_DIRECT_MAX : Nat := 31

def BC_STRING_DIRECT : Nat := 0x00

def STRING_SHORT_MAX : Nat := 1023

def BC_STRING_SHORT : Nat := 0x30

/-- Modelled from the spec: `DEFAULT_REQUEST_META` from
`dubbo/common/constants.py` (not in the provided sources) — the fixed
12-byte request-frame prefix: magic `0xda 0xbb`, a flags byte marking a
two-way request, a zero status byte and an 8-byte zero request-id
placeholder. -/
def DEFAULT_REQUEST_META : List Nat :=
  [0xda, 0xbb, 0xc2, 0x00, 0, 0, 0, 0, 0, 0, 0, 0]

/-- The exception kinds the modelled code can raise.  `hessianTypeError` is
the repository's `HessianTypeError`; `keyError`, `valueError` and
`structError` model the corresponding Python built-in exceptions;
`registerException` is the repository's `RegisterException`. -/
inductive Err where
  | hessianTypeError
  | keyError
  | valueError
  | structError
  | registerException
deriving DecidableEq

instance {ε α : Type} [DecidableEq ε] [DecidableEq α] : DecidableEq (Except ε α) := by
  intro a b
  cases a <;> cases b
  case error.error e1 e2 =>
    exact if h : e1 = e2 then .isTrue (by rw [h]) else .isFalse (by simp [h])
  case error.ok => exact .isFalse (by simp)
  case ok.error => exact .isFalse (by simp)
  case ok.ok a1 a2 =>
    exact if h : a1 = a2 then .isTrue (by rw [h]) else .isFalse (by simp [h])

/-- The dynamic values the encoder dispatches on (`_encode_single_value`'s
`isinstance` chain): `bool`, `int` (arbitrary precision), `float`
(represented by its IEEE-754 64-bit pattern), `str` (its Unicode code
points), the repository's `Object` class (its Java path and its ordered
field dictionary), and `vOther` standing for any other dynamic type,
which the encoder rejects. -/
inductive Value where
  | vBool : Bool → Value
  | vInt : Int → Value
  | vFloat : Nat → Value
  | vStr : List Nat → Value
  | vObj : String → List (String × Value) → Value
  | vOther : Value

/-- Python `>>` on an `int`: floor division by `2 ^ k`. -/
def pyShr (v : Int) (k : Nat) : Int := Int.fdiv v (2 ^ k)

/-- `struct.pack('>q', v)`: the eight big-endian bytes of the two's
complement representation of `v` (the caller checks the 64-bit range). -/
def packInt64 (v : Int) : List Int :=
  let m := (v % (2 ^ 64 : Int)).toNat
  [Int.ofNat (m / 2 ^ 56 % 256), Int.ofNat (m / 2 ^ 48 % 256),
   Int.ofNat (m / 2 ^ 40 % 256), Int.ofNat (m / 2 ^ 32 % 256),
   Int.ofNat (m / 2 ^ 24 % 256), Int.ofNat (m / 2 ^ 16 % 256),
   Int.ofNat (m / 2 ^ 8 % 256), Int.ofNat (m % 256)]

/-- The `isinstance(value, int)` branch of `_encode_single_value`:
out-of-Int32 values get `'L'` plus `struct.pack('>q', value)` (which
raises `struct.error` outside the signed 64-bit range), otherwise one of
the four compact Int32 forms.  Bytes are raw here; `_encode_request_body`
masks them with `& 0xff` at the end. -/
def encodeInt (v : Int) : Except Err (List Int) :=
  if MAX_INT_32 < v ∨ v < MIN_INT_32 then
    if v < MIN_INT_64 ∨ MAX_INT_64 < v then .error .structError
    else .ok (76 :: packInt64 v)
  else .ok (
    if INT_DIRECT_MIN ≤ v ∧ v ≤ INT_DIRECT_MAX then [v + BC_INT_ZERO]
    else if INT_BYTE_MIN ≤ v ∧ v ≤ INT_BYTE_MAX then
      [BC_INT_BYTE_ZERO + pyShr v 8, v]
    else if INT_SHORT_MIN ≤ v ∧ v ≤ INT_SHORT_MAX then
      [BC_INT_SHORT_ZERO + pyShr v 16, pyShr v 8, v]
    else [73, pyShr v 24, pyShr v 16, pyShr v 8, v])

/-- The exact rational value of an IEEE-754 binary64 bit pattern, `none`
for the non-finite patterns (exponent field all ones). -/
def ieeeVal (bits : Nat) : Option ℚ :=
  let expo : Nat := bits / 2 ^ 52 % 2 ^ 11
  let frac : Nat := bits % 2 ^ 52
  let sign : ℚ := if bits / 2 ^ 63 % 2 = 1 then -1 else 1
  if expo = 2047 then none
  else if expo = 0 then some (sign * frac / 2 ^ 1074)
  else some (sign * (2 ^ 52 + frac) * (2 : ℚ) ^ ((expo : ℤ) - 1075))

/-- Python `int(·)` on a float value: truncation toward zero. -/
def truncQ (q : ℚ) : Int := Int.tdiv q.num q.den

/-- The `isinstance(value, float)` branch of `_encode_single_value`.
`int(value)` on a non-finite float raises (modelled as `valueError`);
`double_to_long_bits` (from the absent `dubbo/common/util.py`) is the
IEEE-754 bit pattern the float value carries.  The `0.001 * mills == value`
round-trip test is modelled by exact rational arithmetic. -/
def encodeDouble (bits : Nat) : Except Err (List Int) :=
  match ieeeVal bits with
  | none => .error .valueError
  | some q =>
    let iv := truncQ q
    if (iv : ℚ) = q ∧ iv = 0 then .ok [BC_DOUBLE_ZERO]
    else if (iv : ℚ) = q ∧ iv = 1 then .ok [BC_DOUBLE_ONE]
    else if (iv : ℚ) = q ∧ -0x80 ≤ iv ∧ iv < 0x80 then .ok [BC_DOUBLE_BYTE, iv]
    else if (iv : ℚ) = q ∧ -0x8000 ≤ iv ∧ iv < 0x8000 then
      .ok [BC_DOUBLE_SHORT, pyShr iv 8, iv]
    else
      let mills := truncQ (q * 1000)
      if (mills : ℚ) / 1000 = q ∧ MIN_INT_32 ≤ mills ∧ mills ≤ MAX_INT_32 then
        .ok [BC_DOUBLE_MILL, pyShr mills 24, pyShr mills 16, pyShr mills 8, mills]
      else
        .ok [68, Int.ofNat (bits / 2 ^ 56), Int.ofNat (bits / 2 ^ 48),
             Int.ofNat (bits / 2 ^ 40), Int.ofNat (bits / 2 ^ 32),
             Int.ofNat (bits / 2 ^ 24), Int.ofNat (bits / 2 ^ 16),
             Int.ofNat (bits / 2 ^ 8), Int.ofNat bits]

/-- UTF-8 encoding of one Unicode code point. -/
def utf8EncodeChar (c : Nat) : List Nat :=
  if c < 0x80 then [c]
  else if c < 0x800 then [0xc0 + c / 64, 0x80 + c % 64]
  else if c < 0x10000 then [0xe0 + c / 4096, 0x80 + c / 64 % 64, 0x80 + c % 64]
  else [0xf0 + c / 262144, 0x80 + c / 4096 % 64, 0x80 + c / 64 % 64, 0x80 + c % 64]

/-- UTF-8 encoding of a sequence of code points. -/
def utf8Encode (cps : List Nat) : List Nat := (cps.map utf8EncodeChar).flatten

/-- The code points of a Lean string literal (used to instantiate the model
on concrete Python strings). -/
def cpsOf (s : String) : List Nat := s.data.map (fun c => c.toNat)

/-- The `isinstance(value, str)` branch of `_encode_single_value`: the
length prefix counts code points (`len(value.decode('utf-8'))`), the
payload is the UTF-8 bytes (`bytearray(value)`); this is the Python-2
reading of the source, which the spec confirms as the intended
behaviour. -/
def encodeStr (cps : List Nat) : List Int :=
  ((if cps.length ≤ STRING_DIRECT_MAX then [BC_STRING_DIRECT + cps.length]
    else if cps.length ≤ STRING_SHORT_MAX then
      [BC_STRING_SHORT + cps.length / 256, cps.length]
    else [83, cps.length / 256, cps.length]) ++ utf8Encode cps).map Int.ofNat

/-- Emission of the class reference after a (possibly fresh) definition:
compact byte `0x60 + classId` when `classId <= 0xf`, else `'O'` followed by
the integer encoding of the classId. -/
def objRef (cid : Nat) : Except Err (List Int) :=
  if cid ≤ 15 then .ok [Int.ofNat (96 + cid)]
  else (encodeInt (Int.ofNat cid)).map (fun bs => 79 :: bs)

mutual

/-- `Request._encode_single_value`, with the mutable `self.__classes` class
table made an explicit argument threaded through the recursion, paired with
each result.  The `Object` branch: on first occurrence of a path, emit
`'C'`, the path string, the field count and the field names, and append the
path to the class table; always emit the class reference
(`self.__classes.index(path)` after the possible append) and then the field
values in declared order. -/
def encodeValue : Value → List String → Except Err (List Int × List String)
  | .vBool b, cs => .ok ([if b then 84 else 70], cs)
  | .vInt n, cs => (encodeInt n).map (fun bs => (bs, cs))
  | .vFloat bits, cs => (encodeDouble bits).map (fun bs => (bs, cs))
  | .vStr cps, cs => .ok (encodeStr cps, cs)
  | .vObj path fields, cs => do
      let (defBytes, cs1) ←
        if path ∈ cs then pure (([] : List Int), cs)
        else do
          let cnt ← encodeInt (Int.ofNat fields.length)
          pure (67 :: encodeStr (cpsOf path) ++ cnt
              ++ (fields.map (fun f => encodeStr (cpsOf f.1))).flatten,
            cs ++ [path])
      let refBytes ← objRef (cs1.indexOf path)
      let (fv, cs2) ← encodeFields fields cs1
      pure (defBytes ++ refBytes ++ fv, cs2)
  | .vOther, _ => .error .hessianTypeError

/-- The field-value loop at the end of the `Object` branch of
`_encode_single_value`, threading the class table left to right. -/
def encodeFields : List (String × Value) → List String → Except Err (List Int × List String)
  | [], cs => .ok ([], cs)
  | (_, v) :: rest, cs => do
      let (bs, cs1) ← encodeValue v cs
      let (bs2, cs2) ← encodeFields rest cs1
      pure (bs ++ bs2, cs2)
end

/-- The argument loop of `_encode_request_body`
(`for argument in arguments: body.extend(self._encode_single_value(argument))`),
threading the same per-request class table. -/
def encodeArgs : List Value → List String → Except Err (List Int × List String)
  | [], cs => .ok ([], cs)
  | v :: rest, cs => do
      let (bs, cs1) ← encodeValue v cs
      let (bs2, cs2) ← encodeArgs rest cs1
      pure (bs ++ bs2, cs2)

/-- The per-argument JVM descriptor from `Request._get_parameter_types`:
`Z`/`I`/`J`/`D`/`Ljava/lang/String;`/`L<path with dots replaced>;`, and
`HessianTypeError` on any other dynamic type. -/
def paramTypeOf : Value → Except Err (List Nat)
  | .vBool _ => .ok (cpsOf "Z")
  | .vInt n => .ok (if MIN_INT_32 ≤ n ∧ n ≤ MAX_INT_32 then cpsOf "I" else cpsOf "J")
  | .vFloat _ => .ok (cpsOf "D")
  | .vStr _ => .ok (cpsOf "Ljava/lang/String;")
  | .vObj path _ =>
      .ok (cpsOf ("L" ++ String.map (fun c => if c = '.' then '/' else c) path ++ ";"))
  | .vOther => .error .hessianTypeError

/-- `Request._get_parameter_types`: the concatenation of the per-argument
descriptors, as code points of the descriptor string. -/
def getParameterTypes : List Value → Except Err (List Nat)
  | [] => .ok []
  | a :: rest => do
      let t ← paramTypeOf a
      let ts ← getParameterTypes rest
      pure (t ++ ts)

/-- The request dictionary built by `DubboClient.call`.  `group` and
`version` are `Option`s because the corresponding dict keys are present
only conditionally. -/
structure RequestParam where
  dubbo_version : String
  path : String
  method : String
  arguments : List Value
  group : Option String
  version : Option String

/-- Python truthiness filter used by `DubboClient.call`
(`if self.__group: ...` / `if self.__version: ...`): the key is added only
when the value is neither `None` nor the empty string. -/
def truthyStr : Option String → Option String
  | some s => if s = "" then none else some s
  | none => none

/-- `DubboClient.call`'s construction of `request_param`: always
`dubbo_version`, `path` (the interface), `method` and `arguments`; `group`
and `version` only when truthy. -/
def clientBuildRequest (interface : String) (group version : Option String)
    (dubboVersion : String) (method : String) (args : List Value) : RequestParam :=
  { dubbo_version := dubboVersion
    path := interface
    method := method
    arguments := args
    group := truthyStr group
    version := truthyStr version }

/-- The final masking loop of `_encode_request_body`
(`body[i] = body[i] & 0xff`). -/
def maskBytes (l : List Int) : List Nat := l.map (fun b => (b % 256).toNat)

/-- `Request._encode_request_body`, starting from the instance's class
table `cs0`.  The reads of the request dict come first: `'version'` is
read unconditionally, so a request built without a version raises
`KeyError` (modelled by `Err.keyError`); `'group'` is never read.  Then
the dubbo version, path, version and method strings, the parameter-type
descriptor, the encoded arguments, and the attachments
(`{path, interface, version}`, insertion order) between `'H'` and `'Z'`;
finally every byte is masked with `& 0xff`. -/
def encodeRequestBody (p : RequestParam) (cs0 : List String) : Except Err (List Nat) := do
  let version ← match p.version with
    | some v => Except.ok v
    | none => Except.error Err.keyError
  let ptypes ← getParameterTypes p.arguments
  let (argBytes, _cs) ← encodeArgs p.arguments cs0
  let attachments := [("path", p.path), ("interface", p.path), ("version", version)]
  let attBytes := (attachments.map
      (fun kv => encodeStr (cpsOf kv.1) ++ encodeStr (cpsOf kv.2))).flatten
  pure (maskBytes (encodeStr (cpsOf p.dubbo_version) ++ encodeStr (cpsOf p.path)
      ++ encodeStr (cpsOf version) ++ encodeStr (cpsOf p.method)
      ++ encodeStr ptypes ++ argBytes ++ [72] ++ attBytes ++ [90]))

/-- Modelled from the spec: `num_2_byte_list` from the absent
`dubbo/common/util.py` — the minimal big-endian byte list of a
non-negative integer (empty for 0). -/
def num2ByteList (n : Nat) : List Nat :=
  if n = 0 then [] else num2ByteList (n / 256) ++ [n % 256]

/-- The padding loop of `get_request_body_length`: prepend zero bytes until
the length field is at least 4 bytes long. -/
def padTo4 (l : List Nat) : List Nat :=
  if l.length < 4 then padTo4 (0 :: l) else l
termination_by 4 - l.length

/-- `get_request_body_length`: the body length as a zero-padded 4-byte
big-endian field. -/
def getRequestBodyLength (body : List Nat) : List Nat := padTo4 (num2ByteList body.length)

/-- A `Request` instance: the request dict plus the instance's mutable
class table, which `Request.__init__` sets to `[]`. -/
structure RequestInstance where
  body : RequestParam
  classes : List String

/-- `Request.__init__(request)`: store the dict and a fresh empty class
table. -/
def mkRequest (p : RequestParam) : RequestInstance := { body := p, classes := [] }

/-- `Request.encode` on an instance: `DEFAULT_REQUEST_META`, the 4-byte
length field, then the body. -/
def requestEncodeInst (r : RequestInstance) : Except Err (List Nat) :=
  (encodeRequestBody r.body r.classes).map
    (fun body => DEFAULT_REQUEST_META ++ getRequestBodyLength body ++ body)

/-- Encoding a request on a freshly constructed `Request` instance (the
composition performed by the connection pool per the spec:
`Encoder(requestParam).encode()`). -/
def requestEncode (p : RequestParam) : Except Err (List Nat) :=
  requestEncodeInst (mkRequest p)

/-- Big-endian value of a byte list (used to state that the length field
denotes the body length). -/
def beVal (l : List Nat) : Nat := l.foldl (fun a b => a * 256 + b) 0

/-- A provider URL parsed from a ZooKeeper child name (`parse_url`):
scheme, `ip:port` host, path, and the query-string fields as an ordered
string-to-string dictionary. -/
structure Provider where
  scheme : String
  host : String
  path : String
  fields : List (String × String)
deriving DecidableEq

/-- `provider['fields'].get(key)`: dictionary lookup returning `None` when
the key is absent. -/
def fieldsGet (p : Provider) (key : String) : Option String :=
  (p.fields.find? (fun kv => kv.1 == key)).map (fun kv => kv.2)

/-- Python `s.split(',')` over the character list: splitting on every
comma, keeping empty pieces (`''.split(',') == ['']`). -/
def splitCommaChars : List Char → List (List Char)
  | [] => [[]]
  | c :: rest =>
      if c = ',' then [] :: splitCommaChars rest
      else match splitCommaChars rest with
        | [] => [[c]]
        | g :: gs => (c :: g) :: gs

/-- Python `s.split(',')` on a string. -/
def splitComma (s : String) : List String :=
  (splitCommaChars s.data).map (fun l => String.mk l)

/-- `ZkRegister.is_contain(contains_value, value)`: `False` when either
argument is falsy (`None` or the empty string), else whether `value` is a
member of `contains_value.split(',')` (the missing final `return` yields
`None`, which is falsy). -/
def isContain (containsValue value : Option String) : Bool :=
  match containsValue with
  | none => false
  | some c =>
      if c = "" then false
      else match value with
        | none => false
        | some s => if s = "" then false else (splitComma c).contains s

/-- The parenthesized version sub-expression of
`ZkRegister._filter_with_group_version`
(`consumer_version is None or '*' == consumer_version or
provider['fields'].get('version') == consumer_version or
is_contain(consumer_version, provider['fields'].get('version'))`).
This coincides with the spec's `versionMatches` clause. -/
def versionClause (p : Provider) (cv : Option String) : Bool :=
  decide (cv = none) || decide (cv = some "*")
    || decide (fieldsGet p "version" = cv) || isContain cv (fieldsGet p "version")

/-- The filter predicate of `ZkRegister._filter_with_group_version`, with
Python's operator precedence: `and` binds tighter than `or`, so the
version clause is conjoined only with the last group disjunct
(`is_contain(consumer_group, provider['fields'].get('default.group'))`). -/
def keepProvider (cg cv : Option String) (p : Provider) : Bool :=
  decide (cg = none) || decide (cg = some "*")
    || decide (fieldsGet p "group" = cg) || isContain cg (fieldsGet p "group")
    || (isContain cg (fieldsGet p "default.group") && versionClause p cv)

/-- `ZkRegister._filter_with_group_version`. -/
def filterWithGroupVersion (providers : List Provider) (cg cv : Option String) :
    List Provider :=
  providers.filter (keepProvider cg cv)

/-- Follows the spec's words (§4.5): the group clause — a null or `"*"`
consumer group matches anything; otherwise equality with the provider's
`group` field, or comma-set membership of the `group` or `default.group`
field. -/
def specGroupMatches (p : Provider) (cg : Option String) : Bool :=
  decide (cg = none) || decide (cg = some "*")
    || decide (fieldsGet p "group" = cg) || isContain cg (fieldsGet p "group")
    || isContain cg (fieldsGet p "default.group")

/-- Follows the spec's words (§4.5): a provider is kept exactly when
`groupMatches(consumerGroup, provider) AND versionMatches(consumerVersion,
provider)`. -/
def specFilterWithGroupVersion (providers : List Provider) (cg cv : Option String) :
    List Provider :=
  providers.filter (fun p => specGroupMatches p cg && versionClause p cv)

/-- The per-host weight list built by `_routing_with_wight`
(`int(weights.get(host, 100))`, dictionary lookup with default 100). -/
def weightsOf (hosts : List String) (weights : List (String × Int)) : List Int :=
  hosts.map (fun h => (((weights.find? (fun kv => kv.1 == h)).map (fun kv => kv.2)).getD 100))

/-- The selection loop of `_routing_with_wight`
(`for i in range(len(hosts)): if hit <= sum(hosts_weight[:i + 1]): return
hosts[i]`), starting at index `i`; falling off the loop raises
`RegisterException`. -/
def routeLoopFrom (hosts : List String) (hw : List Int) (hit : Int) (i : Nat) :
    Except Err String :=
  if i < hosts.length then
    if hit ≤ (hw.take (i + 1)).sum then .ok (hosts.getD i "")
    else routeLoopFrom hosts hw hit (i + 1)
  else .error .registerException
termination_by hosts.length - i
decreasing_by omega

/-- `ZkRegister._routing_with_wight` with the randomness externalized:
`choice` is the index `random.choice` would pick in the unweighted branch
and `hit` is the value drawn by `random.randint(0, sum(hosts_weight) - 1)`
in the weighted branch.  An empty weight dictionary (covering both a
missing and an empty `self.weights[interface]`) selects the unweighted
branch. -/
def routingWithWeight (hosts : List String) (weights : List (String × Int))
    (choice : Nat) (hit : Int) : Except Err String :=
  if hosts = [] then .error .registerException
  else if weights = [] then .ok (hosts.getD (choice % hosts.length) "")
  else routeLoopFrom hosts (weightsOf hosts weights) hit 0

/-- Follows the spec's words (§4.6): return `hosts[i]` for the smallest `i`
such that `hit < w_0 + ... + w_i`. -/
def specRouteSelect (hosts : List String) (weights : List (String × Int))
    (hit : Int) : Option String :=
  ((List.range hosts.length).find?
      (fun i => hit < ((weightsOf hosts weights).take (i + 1)).sum)).map
    (fun i => hosts.getD i "")

mutual

/-- No `vOther` node anywhere in the value: the value stays inside the six
supported variants, recursively. -/
def noOther : Value → Bool
  | .vBool _ => true
  | .vInt _ => true
  | .vFloat _ => true
  | .vStr _ => true
  | .vObj _ fields => noOtherFields fields
  | .vOther => false

def noOtherFields : List (String × Value) → Bool
  | [] => true
  | (_, v) :: rest => noOther v && noOtherFields rest

end

mutual

/-- The numeric side conditions under which the encoder cannot raise a
non-type error: every integer fits the signed 64-bit `struct.pack('>q', ·)`
range, every float bit pattern is finite, and every object's field count
fits the integer encoder. -/
def numsClean : Value → Bool
  | .vBool _ => true
  | .vInt n => decide (MIN_INT_64 ≤ n ∧ n ≤ MAX_INT_64)
  | .vFloat bits => (ieeeVal bits).isSome
  | .vStr _ => true
  | .vObj _ fields =>
      decide ((Int.ofNat fields.length) ≤ MAX_INT_64) && numsCleanFields fields
  | .vOther => true

def numsCleanFields : List (String × Value) → Bool
  | [] => true
  | (_, v) :: rest => numsClean v && numsCleanFields rest

end

mutual

/-- The number of `Object` nodes in a value; it bounds how much the class
table can grow while encoding the value. -/
def objNodes : Value → Nat
  | .vBool _ => 0
  | .vInt _ => 0
  | .vFloat _ => 0
  | .vStr _ => 0
  | .vObj _ fields => 1 + objNodesFields fields
  | .vOther => 0

def objNodesFields : List (String × Value) → Nat
  | [] => 0
  | (_, v) :: rest => objNodes v + objNodesFields rest

end

/-! ### Helper lemmas -/

theorem mask_ofNat (a : Nat) : ((Int.ofNat a) % (256 : Int)).toNat = a % 256 := by
  rw [Int.ofNat_eq_natCast]
  omega

theorem maskBytes_map_ofNat (l : List Nat) :
    maskBytes (l.map Int.ofNat) = l.map (fun a => a % 256) := by
  simp only [maskBytes, List.map_map]
  exact List.map_congr_left (fun a _ => mask_ofNat a)

theorem utf8EncodeChar_lt (c : Nat) (h : c < 1114112) :
    ∀ b ∈ utf8EncodeChar c, b < 256 := by
  intro b hb
  unfold utf8EncodeChar at hb
  split_ifs at hb <;> simp at hb <;> omega

theorem utf8Encode_lt (cps : List Nat) (h : ∀ c ∈ cps, c < 1114112) :
    ∀ b ∈ utf8Encode cps, b < 256 := by
  intro b hb
  unfold utf8Encode at hb
  rw [List.mem_flatten] at hb
  obtain ⟨l, hl, hbl⟩ := hb
  rw [List.mem_map] at hl
  obtain ⟨c, hc, rfl⟩ := hl
  exact utf8EncodeChar_lt c (h c hc) b hbl

/-! ### C1: string encoding -/

/-- C1: for every string value, the encoder emits a length prefix counting
Unicode code points — one byte `BC_STRING_DIRECT + length` when
`length ≤ 31`, two `BC_STRING_SHORT`-based bytes when `length ≤ 1023`, else
`'S'` plus the big-endian 16-bit length — followed by the UTF-8 encoding of
the string as the payload bytes. -/
theorem c1_string_encoding (cps : List Nat) (hv : ∀ c ∈ cps, c < 1114112) :
    (cps.length ≤ 31 →
      maskBytes (encodeStr cps) = (BC_STRING_DIRECT + cps.length) :: utf8Encode cps)
    ∧ (32 ≤ cps.length → cps.length ≤ 1023 →
      maskBytes (encodeStr cps)
        = (BC_STRING_SHORT + cps.length / 256) :: (cps.length % 256) :: utf8Encode cps)
    ∧ (1024 ≤ cps.length → cps.length < 65536 →
      maskBytes (encodeStr cps)
        = 83 :: (cps.length / 256) :: (cps.length % 256) :: utf8Encode cps) := by
  have hpayload : (utf8Encode cps).map (fun a => a % 256) = utf8Encode cps := by
    conv_rhs => rw [← List.map_id (utf8Encode cps)]
    exact List.map_congr_left (fun b hb => Nat.mod_eq_of_lt (utf8Encode_lt cps hv b hb))
  unfold encodeStr
  unfold STRING_DIRECT_MAX STRING_SHORT_MAX
  refine ⟨fun h1 => ?_, fun h1 h2 => ?_, fun h1 h2 => ?_⟩
  · rw [if_pos h1, maskBytes_map_ofNat, List.map_append, hpayload]
    simp only [List.map_cons, List.map_nil, List.cons_append, List.nil_append]
    rw [Nat.mod_eq_of_lt (show BC_STRING_DIRECT + cps.length < 256 by
      unfold BC_STRING_DIRECT; omega)]
  · rw [if_neg (by omega), if_pos h2, maskBytes_map_ofNat, List.map_append, hpayload]
    simp only [List.map_cons, List.map_nil, List.cons_append, List.nil_append]
    rw [Nat.mod_eq_of_lt (show BC_STRING_SHORT + cps.length / 256 < 256 by
      unfold BC_STRING_SHORT; omega)]
  · rw [if_neg (by omega), if_neg (by omega), maskBytes_map_ofNat, List.map_append,
      hpayload]
    simp only [List.map_cons, List.map_nil, List.cons_append, List.nil_append]
    rw [Nat.mod_eq_of_lt (show (83 : Nat) < 256 by omega)]
    rw [Nat.mod_eq_of_lt (show cps.length / 256 < 256 by omega)]

/-- Witness for C1 at the concrete strings `"ping"` (4 code points, direct
form) and a 40-code-point string (short form). -/
theorem c1_string_encoding_witness :
    ((∀ c ∈ cpsOf "ping", c < 1114112)
      ∧ maskBytes (encodeStr (cpsOf "ping"))
          = (BC_STRING_DIRECT + (cpsOf "ping").length) :: utf8Encode (cpsOf "ping"))
    ∧ ((∀ c ∈ List.replicate 40 97, c < 1114112)
      ∧ maskBytes (encodeStr (List.replicate 40 97))
          = (BC_STRING_SHORT + (List.replicate 40 97).length / 256)
              :: ((List.replicate 40 97).length % 256)
              :: utf8Encode (List.replicate 40 97)) :=
  ⟨⟨by decide, (c1_string_encoding (cpsOf "ping") (by decide)).1 (by decide)⟩,
   ⟨by decide, (c1_string_encoding (List.replicate 40 97) (by decide)).2.1
      (by decide) (by decide)⟩⟩

/-! ### C5: integer encodings -/

/-- C5: for every integer argument `v`, if `-16 ≤ v ≤ 47` its body encoding
is the single byte `v + 0x90`; if `v` lies outside the signed 32-bit range
(and inside the `struct.pack('>q', ·)` 64-bit range) its parameter-type
descriptor is `J` and its body encoding is `'L'` followed by the eight
big-endian bytes of the two's complement (signed 64-bit) representation of
`v`, i.e. bytes that big-endian-decode to `v mod 2^64`. -/
theorem c5_int_encoding (v : Int) :
    (INT_DIRECT_MIN ≤ v → v ≤ INT_DIRECT_MAX →
      encodeInt v = .ok [v + BC_INT_ZERO])
    ∧ (v < MIN_INT_32 ∨ MAX_INT_32 < v → MIN_INT_64 ≤ v → v ≤ MAX_INT_64 →
      paramTypeOf (.vInt v) = .ok (cpsOf "J")
      ∧ encodeInt v = .ok (76 :: packInt64 v)
      ∧ beVal ((packInt64 v).map Int.toNat) = (v % (2 ^ 64 : Int)).toNat) := by
  unfold encodeInt INT_DIRECT_MIN INT_DIRECT_MAX MIN_INT_32 MAX_INT_32 MIN_INT_64 MAX_INT_64
  constructor
  · intro h1 h2
    rw [if_neg (by omega), if_pos (by constructor <;> omega)]
  · intro h0 h1 h2
    refine ⟨?_, ?_, ?_⟩
    · simp only [paramTypeOf, MIN_INT_32, MAX_INT_32]
      rw [if_neg (by omega)]
    · rw [if_pos (by omega), if_neg (by omega)]
    · unfold packInt64 beVal
      simp only [List.map_cons, List.map_nil, List.foldl_cons, List.foldl_nil,
        Int.ofNat_eq_natCast, Int.toNat_natCast]
      have e64 : (2 : Int) ^ 64 = 18446744073709551616 := by norm_num
      have e56 : (2 : Nat) ^ 56 = 72057594037927936 := by norm_num
      have e48 : (2 : Nat) ^ 48 = 281474976710656 := by norm_num
      have e40 : (2 : Nat) ^ 40 = 1099511627776 := by norm_num
      have e32 : (2 : Nat) ^ 32 = 4294967296 := by norm_num
      have e24 : (2 : Nat) ^ 24 = 16777216 := by norm_num
      have e16 : (2 : Nat) ^ 16 = 65536 := by norm_num
      have e8 : (2 : Nat) ^ 8 = 256 := by norm_num
      rw [e64, e56, e48, e40, e32, e24, e16, e8]
      have hm : (v % (18446744073709551616 : Int)).toNat < 18446744073709551616 := by
        omega
      set m := (v % (18446744073709551616 : Int)).toNat with hmdef
      have d1 : m / 256 / 256 = m / 65536 := by
        rw [Nat.div_div_eq_div_mul]
      have d2 : m / 65536 / 256 = m / 16777216 := by
        rw [Nat.div_div_eq_div_mul]
      have d3 : m / 16777216 / 256 = m / 4294967296 := by
        rw [Nat.div_div_eq_div_mul]
      have d4 : m / 4294967296 / 256 = m / 1099511627776 := by
        rw [Nat.div_div_eq_div_mul]
      have d5 : m / 1099511627776 / 256 = m / 281474976710656 := by
        rw [Nat.div_div_eq_div_mul]
      have d6 : m / 281474976710656 / 256 = m / 72057594037927936 := by
        rw [Nat.div_div_eq_div_mul]
      omega

/-- Witness for C5 at `v = 42` (direct form, scenario 2 of the spec) and
`v = 2^35` (Int64 form, scenario 3). -/
theorem c5_int_encoding_witness :
    (INT_DIRECT_MIN ≤ (42 : Int) ∧ (42 : Int) ≤ INT_DIRECT_MAX
      ∧ encodeInt 42 = .ok [42 + BC_INT_ZERO])
    ∧ (MAX_INT_32 < (34359738368 : Int) ∧ MIN_INT_64 ≤ (34359738368 : Int)
      ∧ (34359738368 : Int) ≤ MAX_INT_64
      ∧ paramTypeOf (.vInt 34359738368) = .ok (cpsOf "J")
      ∧ encodeInt 34359738368 = .ok (76 :: packInt64 34359738368)
      ∧ beVal ((packInt64 34359738368).map Int.toNat)
          = ((34359738368 : Int) % (2 ^ 64 : Int)).toNat) :=
  ⟨⟨by decide, by decide, (c5_int_encoding 42).1 (by decide) (by decide)⟩,
   ⟨by decide, by decide, by decide,
    ((c5_int_encoding 34359738368).2 (Or.inr (by decide)) (by decide) (by decide)).1,
    ((c5_int_encoding 34359738368).2 (Or.inr (by decide)) (by decide) (by decide)).2.1,
    ((c5_int_encoding 34359738368).2 (Or.inr (by decide)) (by decide) (by decide)).2.2⟩⟩

/-! ### Routing lemmas -/

theorem routeLoopFrom_of_first (hosts : List String) (hw : List Int) (hit : Int)
    (i : Nat) (hlt : i < hosts.length) (hcond : hit ≤ (hw.take (i + 1)).sum)
    (hmin : ∀ j, j < i → ¬ hit ≤ (hw.take (j + 1)).sum) :
    ∀ i0, i0 ≤ i → routeLoopFrom hosts hw hit i0 = .ok (hosts.getD i "") := by
  suffices H : ∀ k i0, i0 ≤ i → i - i0 = k →
      routeLoopFrom hosts hw hit i0 = .ok (hosts.getD i "") by
    exact fun i0 h0 => H (i - i0) i0 h0 rfl
  intro k
  induction k with
  | zero =>
      intro i0 h0 hk
      have hi : i0 = i := by omega
      subst hi
      rw [routeLoopFrom, if_pos hlt, if_pos hcond]
  | succ k ih =>
      intro i0 h0 hk
      rw [routeLoopFrom, if_pos (by omega), if_neg (hmin i0 (by omega))]
      exact ih (i0 + 1) (by omega) (by omega)

theorem routeLoopFrom_total (hosts : List String) (hw : List Int) (hit : Int)
    (hlen : hw.length = hosts.length) (hhit : hit ≤ hw.sum) :
    ∀ i0, i0 < hosts.length →
      ∃ j, j < hosts.length ∧ routeLoopFrom hosts hw hit i0 = .ok (hosts.getD j "") := by
  suffices H : ∀ k i0, i0 < hosts.length → hosts.length - i0 = k →
      ∃ j, j < hosts.length ∧ routeLoopFrom hosts hw hit i0 = .ok (hosts.getD j "") by
    exact fun i0 h0 => H (hosts.length - i0) i0 h0 rfl
  intro k
  induction k with
  | zero => intro i0 h0 hk; omega
  | succ k ih =>
      intro i0 h0 hk
      by_cases hc : hit ≤ (hw.take (i0 + 1)).sum
      · exact ⟨i0, h0, by rw [routeLoopFrom, if_pos h0, if_pos hc]⟩
      · rcases Nat.lt_or_ge (i0 + 1) hosts.length with hlt1 | hge1
        · obtain ⟨j, hj, heq⟩ := ih (i0 + 1) hlt1 (by omega)
          exact ⟨j, hj, by rw [routeLoopFrom, if_pos h0, if_neg hc]; exact heq⟩
        · exfalso
          apply hc
          rw [List.take_of_length_le (by omega)]
          exact hhit

/-! ### C2: direct-host call with no version -/

/-- C2 (code bug): `DubboClient('com.example.Svc', host=...)` with no
version or group followed by `call('ping')` builds a request dict without
a `'version'` key, and `_encode_request_body` reads `self.__body['version']`
unconditionally, so encoding raises `KeyError` instead of producing the
body the claim (and spec scenario 1) describes. -/
theorem c2_version_key_error :
    encodeRequestBody
        (clientBuildRequest "com.example.Svc" none none "2.6.1" "ping" []) [] =
      .error .keyError := by
  decide

/-! ### C3: provider filtering by group and version -/

/-- C3 (code bug): Python's `and` binds tighter than `or`, so
`_filter_with_group_version` keeps any provider as soon as the consumer
group is `None` (or `'*'`, or matches); the version clause is only tested
in conjunction with the `default.group` containment disjunct.  With
`consumer_group = None` and `consumer_version = '1.0.0'`, a provider whose
`version` field is `'2.0.0'` is kept by the code, while the spec's
`groupMatches AND versionMatches` rule drops it. -/
theorem c3_filter_precedence :
    filterWithGroupVersion
        [{ scheme := "dubbo", host := "10.0.0.1:20880", path := "/com.example.Svc",
           fields := [("version", "2.0.0")] }] none (some "1.0.0")
      = [{ scheme := "dubbo", host := "10.0.0.1:20880", path := "/com.example.Svc",
           fields := [("version", "2.0.0")] }]
    ∧ specFilterWithGroupVersion
        [{ scheme := "dubbo", host := "10.0.0.1:20880", path := "/com.example.Svc",
           fields := [("version", "2.0.0")] }] none (some "1.0.0") = [] :=
  ⟨by decide, by decide⟩

/-! ### C4: weighted routing selection rule -/

/-- C4 counterexample: with hosts `A, B`, weights `1, 1` and drawn
`hit = 1 ∈ [0, 1]`, the code's `hit <= sum(hosts_weight[:i+1])` test
returns `A`, while the claim's strict rule (smallest `i` with
`hit < w_0 + ... + w_i`) selects `B`. -/
theorem c4_counterexample :
    routingWithWeight ["A", "B"] [("A", 1), ("B", 1)] 0 1 = .ok "A"
    ∧ specRouteSelect ["A", "B"] [("A", 1), ("B", 1)] 1 = some "B"
    ∧ ("A" : String) ≠ "B" :=
  ⟨by simp [routingWithWeight, routeLoopFrom, weightsOf], by decide, by decide⟩

/-- C4 (amended): for every non-empty host list and non-empty weight map,
with per-host weight `w_i = weights[hosts[i]]` defaulting to 100 and a
drawn value `hit`, the weighted router returns `hosts[i]` for the smallest
index `i` such that `hit ≤ w_0 + ... + w_i` (the source uses `<=`, not
`<`). -/
theorem c4_weighted_selection (hosts : List String) (weights : List (String × Int))
    (choice : Nat) (hit : Int) (i : Nat) (hne : hosts ≠ []) (hwne : weights ≠ [])
    (hlt : i < hosts.length)
    (hcond : hit ≤ ((weightsOf hosts weights).take (i + 1)).sum)
    (hmin : ∀ j, j < i → ¬ hit ≤ ((weightsOf hosts weights).take (j + 1)).sum) :
    routingWithWeight hosts weights choice hit = .ok (hosts.getD i "") := by
  unfold routingWithWeight
  rw [if_neg hne, if_neg hwne]
  exact routeLoopFrom_of_first hosts (weightsOf hosts weights) hit i hlt hcond hmin 0
    (Nat.zero_le i)

/-- Witness for the amended C4: hosts `A, B` with weights `25, 75` and
`hit = 30` select index 1 (`B`), since `30 ≰ 25` but `30 ≤ 100`. -/
theorem c4_weighted_selection_witness :
    (["A", "B"] : List String) ≠ []
    ∧ ([("A", (25 : Int)), ("B", 75)] : List (String × Int)) ≠ []
    ∧ 1 < (["A", "B"] : List String).length
    ∧ (30 : Int) ≤ ((weightsOf ["A", "B"] [("A", 25), ("B", 75)]).take 2).sum
    ∧ (∀ j, j < 1 →
        ¬ (30 : Int) ≤ ((weightsOf ["A", "B"] [("A", 25), ("B", 75)]).take (j + 1)).sum)
    ∧ routingWithWeight ["A", "B"] [("A", 25), ("B", 75)] 0 30
        = .ok ((["A", "B"] : List String).getD 1 "") :=
  ⟨by decide, by decide, by decide, by decide,
   by intro j hj; interval_cases j; decide,
   c4_weighted_selection ["A", "B"] [("A", 25), ("B", 75)] 0 30 1 (by decide) (by decide)
     (by decide) (by decide) (by intro j hj; interval_cases j; decide)⟩

/-! ### C10: the weighted loop always returns -/

/-- C10: for every non-empty host list and non-empty weight map whose
per-host weights (default 100) sum to a positive total, and a drawn
`hit ∈ [0, total - 1]`, the weighted routing loop returns one of the
hosts; the trailing `RegisterException` after the loop is unreachable
under these preconditions. -/
theorem c10_weighted_routing_total (hosts : List String)
    (weights : List (String × Int)) (choice : Nat) (hit : Int)
    (hne : hosts ≠ []) (hwne : weights ≠ [])
    (hpos : 0 < (weightsOf hosts weights).sum) (h0 : 0 ≤ hit)
    (h1 : hit ≤ (weightsOf hosts weights).sum - 1) :
    ∃ h, h ∈ hosts ∧ routingWithWeight hosts weights choice hit = .ok h := by
  have hlen0 : 0 < hosts.length := List.length_pos.mpr hne
  obtain ⟨j, hj, heq⟩ := routeLoopFrom_total hosts (weightsOf hosts weights) hit
    (by simp [weightsOf]) (by omega) 0 hlen0
  refine ⟨hosts.getD j "", ?_, ?_⟩
  · rw [List.getD_eq_getElem hosts "" hj]
    exact List.getElem_mem hj
  · unfold routingWithWeight
    rw [if_neg hne, if_neg hwne]
    exact heq

/-- Witness for C10: hosts `A, B` with weights `25, 75`, `hit = 99`. -/
theorem c10_weighted_routing_total_witness :
    (["A", "B"] : List String) ≠ []
    ∧ ([("A", (25 : Int)), ("B", 75)] : List (String × Int)) ≠ []
    ∧ 0 < (weightsOf ["A", "B"] [("A", 25), ("B", 75)]).sum
    ∧ (0 : Int) ≤ 99
    ∧ (99 : Int) ≤ (weightsOf ["A", "B"] [("A", 25), ("B", 75)]).sum - 1
    ∧ ∃ h, h ∈ (["A", "B"] : List String)
        ∧ routingWithWeight ["A", "B"] [("A", 25), ("B", 75)] 0 99 = .ok h :=
  ⟨by decide, by decide, by decide, by decide, by decide,
   c10_weighted_routing_total ["A", "B"] [("A", 25), ("B", 75)] 0 99 (by decide)
     (by decide) (by decide) (by decide) (by decide)⟩

/-! ### C8: deterministic encoding across instances -/

/-- C8: for a fixed request map, encoding it on two independently
constructed `Request` instances produces byte-for-byte equal output: the
class table is instance state, `Request.__init__` initializes it to `[]`,
and the encoding is a function of the request dict and that initial
table. -/
theorem c8_deterministic_encoding (p : RequestParam) (r1 r2 : RequestInstance)
    (h1 : r1 = mkRequest p) (h2 : r2 = mkRequest p) :
    requestEncodeInst r1 = requestEncodeInst r2 := by
  subst h1
  subst h2
  rfl

/-- Witness for C8 at a request with an `Object` argument (exercising the
class table). -/
theorem c8_deterministic_encoding_witness :
    mkRequest (clientBuildRequest "a.Svc" none (some "1.0.0") "2.6.1" "m"
        [.vObj "x.Y" [("f", .vInt 1)]])
      = mkRequest (clientBuildRequest "a.Svc" none (some "1.0.0") "2.6.1" "m"
        [.vObj "x.Y" [("f", .vInt 1)]])
    ∧ requestEncodeInst (mkRequest (clientBuildRequest "a.Svc" none (some "1.0.0")
        "2.6.1" "m" [.vObj "x.Y" [("f", .vInt 1)]]))
      = requestEncodeInst (mkRequest (clientBuildRequest "a.Svc" none (some "1.0.0")
        "2.6.1" "m" [.vObj "x.Y" [("f", .vInt 1)]])) :=
  ⟨rfl,
   c8_deterministic_encoding
     (clientBuildRequest "a.Svc" none (some "1.0.0") "2.6.1" "m"
       [.vObj "x.Y" [("f", .vInt 1)]]) _ _ rfl rfl⟩

/-! ### Length-field lemmas for C7 -/

theorem beVal_cons_zero (l : List Nat) : beVal (0 :: l) = beVal l := by
  simp [beVal]

theorem beVal_append_single (l : List Nat) (b : Nat) :
    beVal (l ++ [b]) = beVal l * 256 + b := by
  unfold beVal
  rw [List.foldl_append]
  simp

theorem padTo4_beVal (l : List Nat) : beVal (padTo4 l) = beVal l := by
  suffices H : ∀ k l, 4 - List.length l = k → beVal (padTo4 l) = beVal l by
    exact H (4 - l.length) l rfl
  intro k
  induction k with
  | zero =>
      intro l hk
      rw [padTo4, if_neg (by omega)]
  | succ k ih =>
      intro l hk
      by_cases hl : l.length < 4
      · rw [padTo4, if_pos hl, ih (0 :: l) (by simp; omega), beVal_cons_zero]
      · rw [padTo4, if_neg hl]

theorem padTo4_length (l : List Nat) (h : l.length ≤ 4) : (padTo4 l).length = 4 := by
  suffices H : ∀ k l, List.length l ≤ 4 → 4 - List.length l = k →
      (padTo4 l).length = 4 by
    exact H (4 - l.length) l h rfl
  intro k
  induction k with
  | zero =>
      intro l hl hk
      rw [padTo4, if_neg (by omega)]
      omega
  | succ k ih =>
      intro l hl hk
      rw [padTo4, if_pos (by omega)]
      exact ih (0 :: l) (by simp; omega) (by simp; omega)

theorem num2ByteList_beVal (n : Nat) : beVal (num2ByteList n) = n := by
  induction n using Nat.strong_induction_on with
  | _ n ih =>
      by_cases h0 : n = 0
      · subst h0
        rw [num2ByteList, if_pos rfl]
        rfl
      · rw [num2ByteList, if_neg h0, beVal_append_single,
          ih (n / 256) (by omega)]
        omega

theorem num2ByteList_length_le (k : Nat) :
    ∀ n, n < 256 ^ k → (num2ByteList n).length ≤ k := by
  induction k with
  | zero =>
      intro n hn
      have h0 : n = 0 := by omega
      subst h0
      rw [num2ByteList, if_pos rfl]
      simp
  | succ k ih =>
      intro n hn
      by_cases h0 : n = 0
      · subst h0
        rw [num2ByteList, if_pos rfl]
        simp
      · rw [num2ByteList, if_neg h0]
        have hd : n / 256 < 256 ^ k := by
          apply Nat.div_lt_of_lt_mul
          calc n < 256 ^ (k + 1) := hn
            _ = 256 * 256 ^ k := by ring
        have := ih (n / 256) hd
        simp only [List.length_append, List.length_cons, List.length_nil]
        omega

/-! ### C7: framing -/

/-- C7: for every request that encodes successfully (with a body shorter
than `2^32` bytes), `encode()` returns `DEFAULT_REQUEST_META`, then a
4-byte big-endian length field whose value is the exact byte length of the
encoded body, then the body. -/
theorem c7_framing (p : RequestParam) (body : List Nat)
    (hbody : encodeRequestBody p [] = .ok body) (hlen : body.length < 4294967296) :
    requestEncode p = .ok (DEFAULT_REQUEST_META ++ getRequestBodyLength body ++ body)
    ∧ (getRequestBodyLength body).length = 4
    ∧ beVal (getRequestBodyLength body) = body.length := by
  refine ⟨?_, ?_, ?_⟩
  · unfold requestEncode requestEncodeInst mkRequest
    simp only [hbody, Except.map]
  · unfold getRequestBodyLength
    refine padTo4_length _ (num2ByteList_length_le 4 _ ?_)
    norm_num
    exact hlen
  · unfold getRequestBodyLength
    rw [padTo4_beVal]
    exact num2ByteList_beVal _

/-- Witness for C7 at a concrete request (dubbo version `"2"`, path `"a"`,
empty version, method `"m"`, no arguments). -/
theorem c7_framing_witness :
    encodeRequestBody
        { dubbo_version := "2", path := "a", method := "m", arguments := [],
          group := none, version := some "" } []
      = .ok [1, 50, 1, 97, 0, 1, 109, 0, 72, 4, 112, 97, 116, 104, 1, 97, 9, 105,
          110, 116, 101, 114, 102, 97, 99, 101, 1, 97, 7, 118, 101, 114, 115, 105,
          111, 110, 0, 90]
    ∧ ([1, 50, 1, 97, 0, 1, 109, 0, 72, 4, 112, 97, 116, 104, 1, 97, 9, 105,
          110, 116, 101, 114, 102, 97, 99, 101, 1, 97, 7, 118, 101, 114, 115, 105,
          111, 110, 0, 90] : List Nat).length < 4294967296
    ∧ (requestEncode
          { dubbo_version := "2", path := "a", method := "m", arguments := [],
            group := none, version := some "" }
        = .ok (DEFAULT_REQUEST_META
            ++ getRequestBodyLength [1, 50, 1, 97, 0, 1, 109, 0, 72, 4, 112, 97,
              116, 104, 1, 97, 9, 105, 110, 116, 101, 114, 102, 97, 99, 101, 1, 97,
              7, 118, 101, 114, 115, 105, 111, 110, 0, 90]
            ++ [1, 50, 1, 97, 0, 1, 109, 0, 72, 4, 112, 97, 116, 104, 1, 97, 9,
              105, 110, 116, 101, 114, 102, 97, 99, 101, 1, 97, 7, 118, 101, 114,
              115, 105, 111, 110, 0, 90])
        ∧ (getRequestBodyLength [1, 50, 1, 97, 0, 1, 109, 0, 72, 4, 112, 97, 116,
            104, 1, 97, 9, 105, 110, 116, 101, 114, 102, 97, 99, 101, 1, 97, 7,
            118, 101, 114, 115, 105, 111, 110, 0, 90]).length = 4
        ∧ beVal (getRequestBodyLength [1, 50, 1, 97, 0, 1, 109, 0, 72, 4, 112, 97,
            116, 104, 1, 97, 9, 105, 110, 116, 101, 114, 102, 97, 99, 101, 1, 97,
            7, 118, 101, 114, 115, 105, 111, 110, 0, 90])
          = ([1, 50, 1, 97, 0, 1, 109, 0, 72, 4, 112, 97, 116, 104, 1, 97, 9, 105,
              110, 116, 101, 114, 102, 97, 99, 101, 1, 97, 7, 118, 101, 114, 115,
              105, 111, 110, 0, 90] : List Nat).length) :=
  ⟨by decide, by decide,
   c7_framing
     { dubbo_version := "2", path := "a", method := "m", arguments := [],
       group := none, version := some "" }
     [1, 50, 1, 97, 0, 1, 109, 0, 72, 4, 112, 97, 116, 104, 1, 97, 9, 105, 110,
      116, 101, 114, 102, 97, 99, 101, 1, 97, 7, 118, 101, 114, 115, 105, 111, 110,
      0, 90] (by decide) (by decide)⟩

/-! ### Class-table lemmas for C6 -/

theorem except_bind_ok {ε α β : Type} (x : Except ε α) (f : α → Except ε β) (b : β)
    (h : (x >>= f) = .ok b) : ∃ a, x = .ok a ∧ f a = .ok b := by
  cases x with
  | error e => simp [bind, Except.bind] at h
  | ok a => exact ⟨a, rfl, by simpa [bind, Except.bind] using h⟩

theorem indexOf_append_self (cs : List String) (path : String) (h : path ∉ cs) :
    (cs ++ [path]).indexOf path = cs.length := by
  rw [List.indexOf_append_of_not_mem h]
  simp

theorem encodeValue_obj_mem (path : String) (fields : List (String × Value))
    (cs : List String) (hmem : path ∈ cs) :
    encodeValue (.vObj path fields) cs = (do
      let refBytes ← objRef (cs.indexOf path)
      let (fv, cs2) ← encodeFields fields cs
      pure (refBytes ++ fv, cs2)) := by
  rw [encodeValue]
  simp only [hmem, if_pos, bind, Except.bind, pure, Except.pure]
  rcases objRef (cs.indexOf path) with e | rb
  · rfl
  · rcases encodeFields fields cs with e | ⟨fv, cs2⟩ <;> simp

theorem encodeValue_obj_not_mem (path : String) (fields : List (String × Value))
    (cs : List String) (hmem : path ∉ cs) :
    encodeValue (.vObj path fields) cs = (do
      let cnt ← encodeInt (Int.ofNat fields.length)
      let refBytes ← objRef ((cs ++ [path]).indexOf path)
      let (fv, cs2) ← encodeFields fields (cs ++ [path])
      pure ((67 :: encodeStr (cpsOf path) ++ cnt
          ++ (fields.map (fun f => encodeStr (cpsOf f.1))).flatten) ++ refBytes ++ fv,
        cs2)) := by
  rw [encodeValue]
  simp only [hmem, if_neg, if_false, bind, Except.bind, pure, Except.pure]

mutual

/-- Whenever `_encode_single_value` succeeds, the class table it returns
extends the table it was given (entries are only appended), it stays
duplicate-free, and it grows by at most the number of `Object` nodes in
the encoded value. -/
theorem encodeValue_classes (v : Value) (cs : List String) (o : List Int)
    (cs' : List String) (h : encodeValue v cs = .ok (o, cs')) :
    (∃ ext, cs' = cs ++ ext) ∧ (cs.Nodup → cs'.Nodup)
    ∧ cs'.length ≤ cs.length + objNodes v := by
  cases v with
  | vBool b =>
      rw [encodeValue] at h
      simp only [Except.ok.injEq, Prod.mk.injEq] at h
      exact ⟨⟨[], by simp [h.2]⟩, fun hn => h.2 ▸ hn, by simp [h.2, objNodes]⟩
  | vInt n =>
      rw [encodeValue] at h
      rcases hni : encodeInt n with e | bs <;> rw [hni] at h <;>
        simp only [Except.map] at h
      · cases h
      · simp only [Except.ok.injEq, Prod.mk.injEq] at h
        exact ⟨⟨[], by simp [h.2]⟩, fun hn => h.2 ▸ hn, by simp [h.2, objNodes]⟩
  | vFloat bits =>
      rw [encodeValue] at h
      rcases hni : encodeDouble bits with e | bs <;> rw [hni] at h <;>
        simp only [Except.map] at h
      · cases h
      · simp only [Except.ok.injEq, Prod.mk.injEq] at h
        exact ⟨⟨[], by simp [h.2]⟩, fun hn => h.2 ▸ hn, by simp [h.2, objNodes]⟩
  | vStr cps =>
      rw [encodeValue] at h
      simp only [Except.ok.injEq, Prod.mk.injEq] at h
      exact ⟨⟨[], by simp [h.2]⟩, fun hn => h.2 ▸ hn, by simp [h.2, objNodes]⟩
  | vOther =>
      rw [encodeValue] at h
      cases h
  | vObj path fields =>
      by_cases hmem : path ∈ cs
      · rw [encodeValue_obj_mem path fields cs hmem] at h
        obtain ⟨rb, hrb, h⟩ := except_bind_ok _ _ _ h
        obtain ⟨⟨fv, cs2⟩, hfv, h⟩ := except_bind_ok _ _ _ h
        simp only [pure, Except.pure, Except.ok.injEq, Prod.mk.injEq] at h
        obtain ⟨hext, hnd, hlen⟩ := encodeFields_classes fields cs fv cs2 hfv
        refine ⟨?_, ?_, ?_⟩
        · rw [← h.2]; exact hext
        · intro hn; rw [← h.2]; exact hnd hn
        · rw [← h.2]; simp only [objNodes]; omega
      · rw [encodeValue_obj_not_mem path fields cs hmem] at h
        obtain ⟨cnt, hcnt, h⟩ := except_bind_ok _ _ _ h
        obtain ⟨rb, hrb, h⟩ := except_bind_ok _ _ _ h
        obtain ⟨⟨fv, cs2⟩, hfv, h⟩ := except_bind_ok _ _ _ h
        simp only [pure, Except.pure, Except.ok.injEq, Prod.mk.injEq] at h
        obtain ⟨hext, hnd, hlen⟩ := encodeFields_classes fields (cs ++ [path]) fv cs2 hfv
        refine ⟨?_, ?_, ?_⟩
        · obtain ⟨ext, hext⟩ := hext
          exact ⟨path :: ext, by rw [← h.2, hext]; simp⟩
        · intro hn
          rw [← h.2]
          apply hnd
          rw [List.nodup_append]
          exact ⟨hn, List.nodup_singleton path,
            fun a ha hb => hmem ((List.mem_singleton.mp hb) ▸ ha)⟩
        · rw [← h.2]
          simp only [List.length_append, List.length_cons, List.length_nil] at hlen ⊢
          simp only [objNodes]
          omega

theorem encodeFields_classes (l : List (String × Value)) (cs : List String)
    (o : List Int) (cs' : List String) (h : encodeFields l cs = .ok (o, cs')) :
    (∃ ext, cs' = cs ++ ext) ∧ (cs.Nodup → cs'.Nodup)
    ∧ cs'.length ≤ cs.length + objNodesFields l := by
  cases l with
  | nil =>
      rw [encodeFields] at h
      simp only [Except.ok.injEq, Prod.mk.injEq] at h
      exact ⟨⟨[], by simp [h.2]⟩, fun hn => h.2 ▸ hn, by simp [h.2, objNodesFields]⟩
  | cons kv rest =>
      obtain ⟨k, v⟩ := kv
      rw [encodeFields] at h
      obtain ⟨⟨bs, cs1⟩, hv, h⟩ := except_bind_ok _ _ _ h
      obtain ⟨⟨bs2, cs2⟩, hr, h⟩ := except_bind_ok _ _ _ h
      simp only [pure, Except.pure, Except.ok.injEq, Prod.mk.injEq] at h
      obtain ⟨⟨e1, he1⟩, hnd1, hlen1⟩ := encodeValue_classes v cs bs cs1 hv
      obtain ⟨⟨e2, he2⟩, hnd2, hlen2⟩ := encodeFields_classes rest cs1 bs2 cs2 hr
      refine ⟨?_, ?_, ?_⟩
      · exact ⟨e1 ++ e2, by rw [← h.2, he2, he1, List.append_assoc]⟩
      · intro hn
        rw [← h.2]
        exact hnd2 (hnd1 hn)
      · rw [← h.2]
        simp only [objNodesFields]
        omega

end

/-! ### C6: class interning -/

/-- C6: within a single encoded request, at most one `C` class definition
is emitted per distinct className.  Conjuncts: (1) the first occurrence of
a className (not yet in the table) emits `C`, the className string, the
field count and the field names, appends the className to the table, and
then emits the class reference with `classId = |table|`; (2) an occurrence
whose className is already in the table emits only the reference (at the
className's table index) and the field values — no definition; (3) the
reference is the compact byte `0x60 + classId` when `classId ≤ 15`, else
`'O'` plus the encoded classId; (4) the table only ever grows by appending
and stays duplicate-free, so a className that has been defined stays in
the table and every later occurrence takes branch (2). -/
theorem c6_class_interning :
    (∀ path fields cs, path ∉ cs →
      encodeValue (.vObj path fields) cs = (do
        let cnt ← encodeInt (Int.ofNat fields.length)
        let refBytes ← objRef cs.length
        let (fv, cs2) ← encodeFields fields (cs ++ [path])
        pure ((67 :: encodeStr (cpsOf path) ++ cnt
            ++ (fields.map (fun f => encodeStr (cpsOf f.1))).flatten) ++ refBytes ++ fv,
          cs2)))
    ∧ (∀ path fields cs, path ∈ cs →
      encodeValue (.vObj path fields) cs = (do
        let refBytes ← objRef (cs.indexOf path)
        let (fv, cs2) ← encodeFields fields cs
        pure (refBytes ++ fv, cs2)))
    ∧ (∀ cid, (cid ≤ 15 → objRef cid = .ok [Int.ofNat (96 + cid)])
        ∧ (15 < cid → objRef cid = (encodeInt (Int.ofNat cid)).map (fun bs => 79 :: bs)))
    ∧ (∀ v cs o cs', encodeValue v cs = .ok (o, cs') →
        (∃ ext, cs' = cs ++ ext) ∧ (cs.Nodup → cs'.Nodup)) := by
  refine ⟨?_, ?_, ?_, ?_⟩
  · intro path fields cs hmem
    rw [encodeValue_obj_not_mem path fields cs hmem, indexOf_append_self cs path hmem]
  · intro path fields cs hmem
    exact encodeValue_obj_mem path fields cs hmem
  · intro cid
    constructor
    · intro h
      unfold objRef
      rw [if_pos h]
    · intro h
      unfold objRef
      rw [if_neg (by omega)]
  · intro v cs o cs' h
    obtain ⟨he, hn, _⟩ := encodeValue_classes v cs o cs' h
    exact ⟨he, hn⟩

/-- Witness for C6: a second occurrence of className `"a.B"` (already in
the table) emits only the compact reference `0x60` and the field value —
no `C` definition. -/
theorem c6_class_interning_witness :
    ("a.B" ∈ (["a.B"] : List String))
    ∧ encodeValue (.vObj "a.B" [("x", .vStr [116])]) ["a.B"] = (do
        let refBytes ← objRef ((["a.B"] : List String).indexOf "a.B")
        let (fv, cs2) ← encodeFields [("x", .vStr [116])] ["a.B"]
        pure (refBytes ++ fv, cs2)) :=
  ⟨by decide,
   c6_class_interning.2.1 "a.B" [("x", .vStr [116])] ["a.B"] (by decide)⟩

/-! ### Error-behaviour lemmas for C9 -/

theorem except_bind_err {ε α β : Type} (x : Except ε α) (f : α → Except ε β) (e : ε)
    (h : (x >>= f) = .error e) : x = .error e ∨ ∃ a, x = .ok a ∧ f a = .error e := by
  cases x with
  | error e2 =>
      simp only [bind, Except.bind] at h
      injection h with h2
      exact Or.inl (by rw [h2])
  | ok a => exact Or.inr ⟨a, rfl, by simpa [bind, Except.bind] using h⟩

theorem encodeInt_ne_hte (n : Int) : encodeInt n ≠ .error .hessianTypeError := by
  unfold encodeInt
  split_ifs <;> simp

theorem encodeInt_isOk (n : Int) (h1 : MIN_INT_64 ≤ n) (h2 : n ≤ MAX_INT_64) :
    ∃ bs, encodeInt n = .ok bs := by
  unfold encodeInt
  unfold MIN_INT_64 at h1
  unfold MAX_INT_64 at h2
  split_ifs with ha hb <;>
    first
      | exact ⟨_, rfl⟩
      | (exfalso; unfold MIN_INT_64 MAX_INT_64 at hb; omega)

theorem encodeDouble_ne_hte (bits : Nat) :
    encodeDouble bits ≠ .error .hessianTypeError := by
  unfold encodeDouble
  rcases ieeeVal bits with _ | q
  · simp
  · simp only []
    split_ifs <;> simp

theorem encodeDouble_isOk (bits : Nat) (h : (ieeeVal bits).isSome) :
    ∃ bs, encodeDouble bits = .ok bs := by
  unfold encodeDouble
  rcases hq : ieeeVal bits with _ | q
  · rw [hq] at h
    simp at h
  · simp only []
    split_ifs <;> exact ⟨_, rfl⟩

theorem objRef_ne_hte (cid : Nat) : objRef cid ≠ .error .hessianTypeError := by
  unfold objRef
  split_ifs
  · simp
  · rcases he : encodeInt (Int.ofNat cid) with e | bs
    · simp only [he, Except.map]
      intro hc
      apply encodeInt_ne_hte (Int.ofNat cid)
      rw [he]
      injection hc with he2
      rw [he2]
    · simp [he, Except.map]

theorem objRef_isOk (cid : Nat) (h : Int.ofNat cid ≤ MAX_INT_64) :
    ∃ bs, objRef cid = .ok bs := by
  unfold objRef
  split_ifs
  · exact ⟨_, rfl⟩
  · obtain ⟨bs, hbs⟩ := encodeInt_isOk (Int.ofNat cid)
      (by unfold MIN_INT_64; rw [Int.ofNat_eq_natCast]; omega) h
    exact ⟨79 :: bs, by rw [hbs, Except.map]⟩

mutual

/-- A value inside the six variants never produces `HessianTypeError`. -/
theorem encodeValue_noOther_ne_hte (v : Value) : ∀ cs, noOther v = true →
    encodeValue v cs ≠ .error .hessianTypeError := by
  intro cs h hc
  cases v with
  | vBool b => rw [encodeValue] at hc; cases hc
  | vInt n =>
      rw [encodeValue] at hc
      rcases he : encodeInt n with e | bs <;> rw [he] at hc <;>
        simp only [Except.map] at hc
      · apply encodeInt_ne_hte n
        rw [he]
        injection hc with he2
        rw [he2]
      · cases hc
  | vFloat bits =>
      rw [encodeValue] at hc
      rcases he : encodeDouble bits with e | bs <;> rw [he] at hc <;>
        simp only [Except.map] at hc
      · apply encodeDouble_ne_hte bits
        rw [he]
        injection hc with he2
        rw [he2]
      · cases hc
  | vStr cps => rw [encodeValue] at hc; cases hc
  | vOther =>
      simp only [noOther] at h
      exact Bool.noConfusion h
  | vObj path fields =>
      simp only [noOther] at h
      by_cases hmem : path ∈ cs
      · rw [encodeValue_obj_mem path fields cs hmem] at hc
        rcases except_bind_err _ _ _ hc with hrb | ⟨rb, hrb, hc⟩
        · exact objRef_ne_hte _ hrb
        · rcases except_bind_err _ _ _ hc with hfv | ⟨⟨fv, cs2⟩, hfv, hc⟩
          · exact encodeFields_noOther_ne_hte fields cs h hfv
          · cases hc
      · rw [encodeValue_obj_not_mem path fields cs hmem] at hc
        rcases except_bind_err _ _ _ hc with hcnt | ⟨cnt, hcnt, hc⟩
        · exact encodeInt_ne_hte _ hcnt
        · rcases except_bind_err _ _ _ hc with hrb | ⟨rb, hrb, hc⟩
          · exact objRef_ne_hte _ hrb
          · rcases except_bind_err _ _ _ hc with hfv | ⟨⟨fv, cs2⟩, hfv, hc⟩
            · exact encodeFields_noOther_ne_hte fields (cs ++ [path]) h hfv
            · cases hc

theorem encodeFields_noOther_ne_hte (l : List (String × Value)) : ∀ cs,
    noOtherFields l = true → encodeFields l cs ≠ .error .hessianTypeError := by
  intro cs h hc
  cases l with
  | nil => rw [encodeFields] at hc; cases hc
  | cons kv rest =>
      obtain ⟨k, v⟩ := kv
      simp only [noOtherFields, Bool.and_eq_true] at h
      rw [encodeFields] at hc
      rcases except_bind_err _ _ _ hc with hv | ⟨⟨bs, cs1⟩, hv, hc⟩
      · exact encodeValue_noOther_ne_hte v cs h.1 hv
      · rcases except_bind_err _ _ _ hc with hr | ⟨⟨bs2, cs2⟩, hr, hc⟩
        · exact encodeFields_noOther_ne_hte rest cs1 h.2 hr
        · cases hc

end

mutual

/-- A value inside the six variants with clean numeric leaves (and enough
room in the class table) encodes successfully. -/
theorem encodeValue_clean_isOk (v : Value) : ∀ cs, noOther v = true →
    numsClean v = true → cs.length + objNodes v ≤ 2 ^ 63 →
    ∃ r, encodeValue v cs = .ok r := by
  intro cs h hc hb
  cases v with
  | vBool b => exact ⟨_, by rw [encodeValue]⟩
  | vInt n =>
      simp only [numsClean, decide_eq_true_eq] at hc
      obtain ⟨bs, hbs⟩ := encodeInt_isOk n hc.1 hc.2
      exact ⟨(bs, cs), by rw [encodeValue, hbs, Except.map]⟩
  | vFloat bits =>
      simp only [numsClean] at hc
      obtain ⟨bs, hbs⟩ := encodeDouble_isOk bits hc
      exact ⟨(bs, cs), by rw [encodeValue, hbs, Except.map]⟩
  | vStr cps => exact ⟨_, by rw [encodeValue]⟩
  | vOther =>
      simp only [noOther] at h
      exact Bool.noConfusion h
  | vObj path fields =>
      simp only [noOther] at h
      simp only [numsClean, Bool.and_eq_true, decide_eq_true_eq] at hc
      simp only [objNodes] at hb
      by_cases hmem : path ∈ cs
      · have hidx : cs.indexOf path < cs.length := List.indexOf_lt_length.mpr hmem
        obtain ⟨rb, hrb⟩ := objRef_isOk (cs.indexOf path)
          (by unfold MAX_INT_64; rw [Int.ofNat_eq_natCast]; omega)
        obtain ⟨⟨fv, cs2⟩, hfv⟩ := encodeFields_clean_isOk fields cs h hc.2 (by omega)
        refine ⟨(rb ++ fv, cs2), ?_⟩
        rw [encodeValue_obj_mem path fields cs hmem]
        simp only [hrb, hfv, bind, Except.bind, pure, Except.pure]
      · obtain ⟨cnt, hcnt⟩ := encodeInt_isOk (Int.ofNat fields.length)
          (by unfold MIN_INT_64; rw [Int.ofNat_eq_natCast]; omega) hc.1
        obtain ⟨rb, hrb⟩ := objRef_isOk cs.length
          (by unfold MAX_INT_64; rw [Int.ofNat_eq_natCast]; omega)
        obtain ⟨⟨fv, cs2⟩, hfv⟩ := encodeFields_clean_isOk fields (cs ++ [path]) h hc.2
          (by simp only [List.length_append, List.length_cons, List.length_nil]; omega)
        refine ⟨((67 :: encodeStr (cpsOf path) ++ cnt
            ++ (fields.map (fun f => encodeStr (cpsOf f.1))).flatten) ++ rb ++ fv,
          cs2), ?_⟩
        rw [encodeValue_obj_not_mem path fields cs hmem,
          indexOf_append_self cs path hmem]
        simp only [hcnt, hrb, hfv, bind, Except.bind, pure, Except.pure]

theorem encodeFields_clean_isOk (l : List (String × Value)) : ∀ cs,
    noOtherFields l = true → numsCleanFields l = true →
    cs.length + objNodesFields l ≤ 2 ^ 63 → ∃ r, encodeFields l cs = .ok r := by
  intro cs h hc hb
  cases l with
  | nil => exact ⟨_, by rw [encodeFields]⟩
  | cons kv rest =>
      obtain ⟨k, v⟩ := kv
      simp only [noOtherFields, Bool.and_eq_true] at h
      simp only [numsCleanFields, Bool.and_eq_true] at hc
      simp only [objNodesFields] at hb
      obtain ⟨⟨bs, cs1⟩, hv⟩ := encodeValue_clean_isOk v cs h.1 hc.1 (by omega)
      obtain ⟨_, _, hgrow⟩ := encodeValue_classes v cs bs cs1 hv
      obtain ⟨⟨bs2, cs2⟩, hr⟩ := encodeFields_clean_isOk rest cs1 h.2 hc.2 (by omega)
      refine ⟨(bs ++ bs2, cs2), ?_⟩
      rw [encodeFields]
      simp only [hv, hr, bind, Except.bind, pure, Except.pure]

end

mutual

/-- A value containing a node outside the six variants (with clean numeric
leaves elsewhere) makes the encoder raise `HessianTypeError`. -/
theorem encodeValue_hasOther_hte (v : Value) : ∀ cs, noOther v = false →
    numsClean v = true → cs.length + objNodes v ≤ 2 ^ 63 →
    encodeValue v cs = .error .hessianTypeError := by
  intro cs h hc hb
  cases v with
  | vBool b => exact Bool.noConfusion ((noOther.eq_1 b) ▸ h)
  | vInt n => exact Bool.noConfusion ((noOther.eq_2 n) ▸ h)
  | vFloat bits => exact Bool.noConfusion ((noOther.eq_3 bits) ▸ h)
  | vStr cps => exact Bool.noConfusion ((noOther.eq_4 cps) ▸ h)
  | vOther => rw [encodeValue]
  | vObj path fields =>
      simp only [noOther] at h
      simp only [numsClean, Bool.and_eq_true, decide_eq_true_eq] at hc
      simp only [objNodes] at hb
      by_cases hmem : path ∈ cs
      · have hidx : cs.indexOf path < cs.length := List.indexOf_lt_length.mpr hmem
        obtain ⟨rb, hrb⟩ := objRef_isOk (cs.indexOf path)
          (by unfold MAX_INT_64; rw [Int.ofNat_eq_natCast]; omega)
        have hfv := encodeFields_hasOther_hte fields cs h hc.2 (by omega)
        rw [encodeValue_obj_mem path fields cs hmem]
        simp only [hrb, hfv, bind, Except.bind, pure, Except.pure]
      · obtain ⟨cnt, hcnt⟩ := encodeInt_isOk (Int.ofNat fields.length)
          (by unfold MIN_INT_64; rw [Int.ofNat_eq_natCast]; omega) hc.1
        obtain ⟨rb, hrb⟩ := objRef_isOk cs.length
          (by unfold MAX_INT_64; rw [Int.ofNat_eq_natCast]; omega)
        have hfv := encodeFields_hasOther_hte fields (cs ++ [path]) h hc.2
          (by simp only [List.length_append, List.length_cons, List.length_nil]; omega)
        rw [encodeValue_obj_not_mem path fields cs hmem,
          indexOf_append_self cs path hmem]
        simp only [hcnt, hrb, hfv, bind, Except.bind, pure, Except.pure]

theorem encodeFields_hasOther_hte (l : List (String × Value)) : ∀ cs,
    noOtherFields l = false → numsCleanFields l = true →
    cs.length + objNodesFields l ≤ 2 ^ 63 →
    encodeFields l cs = .error .hessianTypeError := by
  intro cs h hc hb
  cases l with
  | nil =>
      simp only [noOtherFields] at h
      exact Bool.noConfusion h
  | cons kv rest =>
      obtain ⟨k, v⟩ := kv
      simp only [numsCleanFields, Bool.and_eq_true] at hc
      simp only [objNodesFields] at hb
      simp only [noOtherFields] at h
      rcases hv : noOther v with _ | _
      · have hval := encodeValue_hasOther_hte v cs hv hc.1 (by omega)
        rw [encodeFields]
        simp only [hval, bind, Except.bind]
      · rw [hv, Bool.true_and] at h
        obtain ⟨⟨bs, cs1⟩, hok⟩ := encodeValue_clean_isOk v cs hv hc.1 (by omega)
        obtain ⟨_, _, hgrow⟩ := encodeValue_classes v cs bs cs1 hok
        have hrest := encodeFields_hasOther_hte rest cs1 h hc.2 (by omega)
        rw [encodeFields]
        simp only [hok, hrest, bind, Except.bind]

end

/-- `paramTypeOf` succeeds exactly on the six variants (it inspects only
the top-level dynamic type). -/
theorem getParameterTypes_ok_iff (args : List Value) :
    (∃ s, getParameterTypes args = .ok s) ↔ ∀ a ∈ args, a ≠ Value.vOther := by
  induction args with
  | nil =>
      constructor
      · intro _ a ha
        cases ha
      · intro _
        exact ⟨[], by rw [getParameterTypes]⟩
  | cons a rest ih =>
      constructor
      · intro ⟨s, hs⟩ b hb
        rw [getParameterTypes] at hs
        obtain ⟨t, ht, hs⟩ := except_bind_ok _ _ _ hs
        obtain ⟨ts, hts, _⟩ := except_bind_ok _ _ _ hs
        rw [List.mem_cons] at hb
        rcases hb with rfl | hb
        · intro hother
          subst hother
          rw [show paramTypeOf Value.vOther = .error .hessianTypeError from rfl] at ht
          cases ht
        · exact ih.mp ⟨ts, hts⟩ b hb
      · intro hall
        have ha : a ≠ Value.vOther := hall a (List.mem_cons_self a rest)
        have ht : ∃ t, paramTypeOf a = .ok t := by
          cases a <;> first
            | exact ⟨_, rfl⟩
            | exact absurd rfl ha
        obtain ⟨t, ht⟩ := ht
        obtain ⟨ts, hts⟩ := ih.mpr (fun b hb => hall b (List.mem_cons_of_mem a hb))
        refine ⟨t ++ ts, ?_⟩
        rw [getParameterTypes]
        simp only [ht, hts, bind, Except.bind, pure, Except.pure]

/-! ### C9: HessianTypeError behaviour -/

/-- C9: the encoder raises `HessianTypeError` exactly on values outside the
six supported variants.  Conjuncts: (1) a value inside the variants never
makes `_encode_single_value` raise `HessianTypeError` (other exceptions —
`struct.error` on an integer outside 64 bits, the `int()` error on a
non-finite float — are possible but are not `HessianTypeError`); (2) a
value containing a node outside the variants, whose numeric leaves are
otherwise clean, makes `_encode_single_value` raise `HessianTypeError`,
recursively through `Object` fields; (3) `_get_parameter_types` succeeds
exactly when every argument's top-level type is one of the six variants
(raising `HessianTypeError` otherwise). -/
theorem c9_hessian_type_error :
    (∀ v cs, noOther v = true → encodeValue v cs ≠ .error .hessianTypeError)
    ∧ (∀ v cs, noOther v = false → numsClean v = true →
        cs.length + objNodes v ≤ 2 ^ 63 →
        encodeValue v cs = .error .hessianTypeError)
    ∧ (∀ args, (∃ s, getParameterTypes args = .ok s) ↔ ∀ a ∈ args, a ≠ Value.vOther) :=
  ⟨fun v cs h => encodeValue_noOther_ne_hte v cs h,
   fun v cs h hc hb => encodeValue_hasOther_hte v cs h hc hb,
   getParameterTypes_ok_iff⟩

/-- Witness for C9: an `Object` whose field value is an unsupported
dynamic value is rejected with `HessianTypeError`; a plain string value is
not. -/
theorem c9_hessian_type_error_witness :
    (noOther (Value.vObj "a.B" [("x", Value.vOther)]) = false
      ∧ numsClean (Value.vObj "a.B" [("x", Value.vOther)]) = true
      ∧ ([] : List String).length + objNodes (Value.vObj "a.B" [("x", Value.vOther)])
          ≤ 2 ^ 63
      ∧ encodeValue (Value.vObj "a.B" [("x", Value.vOther)]) []
          = .error .hessianTypeError)
    ∧ (noOther (Value.vStr [97]) = true
      ∧ encodeValue (Value.vStr [97]) [] ≠ .error .hessianTypeError) :=
  ⟨⟨by decide, by decide, by decide,
    c9_hessian_type_error.2.1 (Value.vObj "a.B" [("x", Value.vOther)]) []
      (by decide) (by decide) (by decide)⟩,
   ⟨by decide, c9_hessian_type_error.1 (Value.vStr [97]) [] (by decide)⟩⟩

end Dubbo
